import Mathlib

/-!
# Double pendulum integrated with fourth order Runge-Kutta (`main.c`)

A shallow embedding of `derivs`, `rungeKutta` and `main` of `main.c`.

The C program computes in `float`.  The embedding is written over an arbitrary
type `α` that has the arithmetic operations the program uses, with the `<math.h>`
functions `sin`, `cos` and the constant `M_PI` taken as parameters, so every
definition below is an ordinary computable function (it runs as it stands over `ℚ`
with any rational `sin`/`cos`).  It is read in two arithmetics:

* exact real arithmetic, `α = ℝ`, `sin = Real.sin`, `cos = Real.cos`, `M_PI = Real.pi`,
  in which every value is finite;
* `FloatVal`, exact finite values together with the special values of `float`
  (plus and minus infinity, NaN), for what the program does on infinite values.

A C array `float y[N]` with `N = 4` is a function `Fin 4 → α`.
-/

namespace DoublePendulum

/-! ## Hardwired parameters -/

/-- Gravity in m/s^2, `#define G 9.82`. -/
def G {α : Type} [OfScientific α] : α := 9.82

/-- Length of the first rod in m, `#define L1 1.0`. -/
def L1 {α : Type} [OfScientific α] : α := 1.0

/-- Length of the second rod in m, `#define L2 1.0`. -/
def L2 {α : Type} [OfScientific α] : α := 1.0

/-- Mass of the first bob in kg, `#define M1 1.0`. -/
def M1 {α : Type} [OfScientific α] : α := 1.0

/-- Mass of the second bob in kg, `#define M2 1.0`. -/
def M2 {α : Type} [OfScientific α] : α := 1.0

/-! ## `derivs` -/

/-- The local `del = yin[2] - yin[0]` of `derivs`. -/
def del {α : Type} [Sub α] (yin : Fin 4 → α) : α := yin 2 - yin 0

/-- The local `den1 = (M1 + M2) * L1 - M2 * L1 * cos(del) * cos(del)` of `derivs`. -/
def den1 {α : Type} [Add α] [Sub α] [Mul α] [OfScientific α] (cos : α → α)
    (yin : Fin 4 → α) : α :=
  (M1 + M2) * L1 - M2 * L1 * cos (del yin) * cos (del yin)

/-- The local `den2 = (L2 / L1) * den1` of `derivs`. -/
def den2 {α : Type} [Add α] [Sub α] [Mul α] [Div α] [OfScientific α] (cos : α → α)
    (yin : Fin 4 → α) : α :=
  (L2 / L1) * den1 cos yin

/-- The function `derivs(xin, yin, dydx)`: the array `dydx` it fills.  The time `xin` is a
parameter of the C function and is kept here. -/
def derivs {α : Type} [Add α] [Sub α] [Mul α] [Div α] [Neg α] [OfScientific α]
    (sin cos : α → α) (_xin : α) (yin : Fin 4 → α) : Fin 4 → α :=
  ![ yin 1,
     (M2 * L1 * yin 1 * yin 1 * sin (del yin) * cos (del yin)
        + M2 * G * sin (yin 2) * cos (del yin) + M2 * L2 * yin 3 * yin 3 * sin (del yin)
        - (M1 + M2) * G * sin (yin 0)) / den1 cos yin,
     yin 3,
     (-M2 * L2 * yin 3 * yin 3 * sin (del yin) * cos (del yin)
        + (M1 + M2) * G * sin (yin 0) * cos (del yin)
        - (M1 + M2) * L1 * yin 1 * yin 1 * sin (del yin)
        - (M1 + M2) * G * sin (yin 2)) / den2 cos yin ]

/-! ## `rungeKutta` -/

/-- The function `rungeKutta(xin, yin, yout, h)`: the array `yout` it fills.  Each C loop
`for (i = 0; i < N; i++)` over the four components is a function of `i : Fin 4`. -/
def rungeKutta {α : Type} [Add α] [Sub α] [Mul α] [Div α] [Neg α] [OfScientific α]
    (sin cos : α → α) (xin : α) (yin : Fin 4 → α) (h : α) : Fin 4 → α :=
  let hh : α := 0.5 * h
  let xh : α := xin + hh
  -- First step
  let dydx := derivs sin cos xin yin
  let k1 : Fin 4 → α := fun i => h * dydx i
  let yt1 : Fin 4 → α := fun i => yin i + 0.5 * k1 i
  -- Second step
  let dydxt2 := derivs sin cos xh yt1
  let k2 : Fin 4 → α := fun i => h * dydxt2 i
  let yt2 : Fin 4 → α := fun i => yin i + 0.5 * k2 i
  -- Third step
  let dydxt3 := derivs sin cos xh yt2
  let k3 : Fin 4 → α := fun i => h * dydxt3 i
  let yt3 : Fin 4 → α := fun i => yin i + k3 i
  -- Fourth step
  let dydxt4 := derivs sin cos (xin + h) yt3
  let k4 : Fin 4 → α := fun i => h * dydxt4 i
  fun i => yin i + k1 i / 6.0 + k2 i / 3.0 + k3 i / 3.0 + k4 i / 6.0

/-! ## `main` -/

/-- The step size `h = (TMAX - TMIN) / (NSTEP - 1.0)` of `main`; `NSTEP` is the `int` read by
`atoi`.  For `NSTEP = 1` the C program divides by zero; the theorems below take
`NSTEP ≥ 2` wherever the value of `h` matters. -/
def stepSize {α : Type} [Sub α] [Div α] [OfScientific α] [IntCast α] (TMIN TMAX : α)
    (NSTEP : ℤ) : α :=
  (TMAX - TMIN) / ((NSTEP : α) - 1.0)

/-- The array `t` after the loop `for (i = 0; i < NSTEP; i++) t[i] = TMIN + h * i;`. -/
def timeArray {α : Type} [Add α] [Mul α] [NatCast α] (TMIN h : α) (NSTEP : ℤ) : List α :=
  (List.range NSTEP.toNat).map (fun (i : Nat) => TMIN + h * (i : α))

/-- The initial state `(th1[0], w1[0], th2[0], w2[0])` of `main`: degrees to radians. -/
def initialState {α : Type} [Mul α] [Div α] [OfScientific α] (pi : α)
    (TH10 W10 TH20 W20 : α) : Fin 4 → α :=
  ![TH10 * pi / 180.0, W10 * pi / 180.0, TH20 * pi / 180.0, W20 * pi / 180.0]

/-- One printed line `printf("%f %f %f %f %f\n", t, th1, w1, th2, w2)`: the five values in
the order they are printed. -/
def record {α : Type} (t : α) (y : Fin 4 → α) : α × α × α × α × α :=
  (t, y 0, y 1, y 2, y 3)

/-- The integration loop `for (i = 0; i < NSTEP - 1; i++)` of `main`, started at index `i`
with `n` iterations left; `yin` holds `(th1[i], w1[i], th2[i], w2[i])`.  The result is the
list of lines printed by the remaining iterations.  Reading `t[i]` or `t[i+1]` outside the
array gives `none`. -/
def mainLoop {α : Type} [Add α] [Sub α] [Mul α] [Div α] [Neg α] [OfScientific α]
    (sin cos : α → α) (t : List α) (h : α) :
    Nat → Nat → (Fin 4 → α) → Option (List (α × α × α × α × α))
  | 0, _, _ => some []
  | n + 1, i, yin =>
    match t[i]?, t[i + 1]? with
    | some ti, some ti1 =>
      let yout := rungeKutta sin cos ti yin h
      match mainLoop sin cos t h n (i + 1) yout with
      | some rest => some (record ti1 yout :: rest)
      | none => none
    | _, _ => none

/-- The program `main` on the arguments `TMIN TMAX TH10 W10 TH20 W20 NSTEP`: the list of
lines it prints.  The arrays `th1, w1, th2, w2` have the same length as `t` and are written
at the index at which `t` is read, so an access outside them is an access outside `t`;
such an access (`NSTEP < 1`) gives `none`.  Allocation is assumed to succeed. -/
def main {α : Type} [Add α] [Sub α] [Mul α] [Div α] [Neg α] [OfScientific α]
    [NatCast α] [IntCast α] (sin cos : α → α) (pi : α)
    (TMIN TMAX TH10 W10 TH20 W20 : α) (NSTEP : ℤ) :
    Option (List (α × α × α × α × α)) :=
  let h := stepSize TMIN TMAX NSTEP
  let t := timeArray TMIN h NSTEP
  let y0 := initialState pi TH10 W10 TH20 W20
  match t[0]? with
  | some t0 =>
    match mainLoop sin cos t h (NSTEP - 1).toNat 0 y0 with
    | some rest => some (record t0 y0 :: rest)
    | none => none
  | none => none

/-! ## The formulas of the specification, for comparison -/

/-- The derivative of the specification's DerivativeModel, written after its formula block,
with the physical parameters `g, l1, l2, m1, m2` as arguments. -/
def specDerive {α : Type} [Field α] (g l1 l2 m1 m2 : α) (sin cos : α → α)
    (state : Fin 4 → α) : Fin 4 → α :=
  let θ1 := state 0
  let ω1 := state 1
  let θ2 := state 2
  let ω2 := state 3
  let del := θ2 - θ1
  let den1 := (m1 + m2) * l1 - m2 * l1 * cos del ^ 2
  let den2 := (l2 / l1) * den1
  ![ ω1,
     (m2 * l1 * ω1 ^ 2 * sin del * cos del
        + m2 * g * sin θ2 * cos del
        + m2 * l2 * ω2 ^ 2 * sin del
        - (m1 + m2) * g * sin θ1) / den1,
     ω2,
     (-m2 * l2 * ω2 ^ 2 * sin del * cos del
        + (m1 + m2) * g * sin θ1 * cos del
        - (m1 + m2) * l1 * ω1 ^ 2 * sin del
        - (m1 + m2) * g * sin θ2) / den2 ]

/-- The classical RK4 step of the specification's Integrator, written after its algorithm
block: `derive` takes the time and the state; sums and scalar multiples of states are
elementwise. -/
def specRK4Step {α : Type} [Field α] (derive : α → (Fin 4 → α) → (Fin 4 → α)) (t : α)
    (state : Fin 4 → α) (h : α) : Fin 4 → α :=
  let k1 := h • derive t state
  let k2 := h • derive (t + h / 2) (state + (0.5 : α) • k1)
  let k3 := h • derive (t + h / 2) (state + (0.5 : α) • k2)
  let k4 := h • derive (t + h) (state + k3)
  fun i => state i + k1 i / 6 + k2 i / 3 + k3 i / 3 + k4 i / 6

/-- The state after `n` Runge-Kutta steps of size `h` from `y`: the `n`-fold iterate of
`rungeKutta`, taken at time `0`. -/
def rkIterate {α : Type} [Field α] (sin cos : α → α) (h : α) (n : Nat) (y : Fin 4 → α) :
    Fin 4 → α :=
  (fun s => rungeKutta sin cos 0 s h)^[n] y

/-- The state part `(θ1, ω1, θ2, ω2)` of a printed line. -/
def recordState {α : Type} (r : α × α × α × α × α) : Fin 4 → α :=
  ![r.2.1, r.2.2.1, r.2.2.2.1, r.2.2.2.2]

/-- The velocity reversal `R(θ1, ω1, θ2, ω2) = (θ1, -ω1, θ2, -ω2)` of a state. -/
def reverseVelocities {α : Type} [Neg α] (y : Fin 4 → α) : Fin 4 → α :=
  ![y 0, -y 1, y 2, -y 3]

/-! ## The special values of `float` -/

/-- The values of the C type `float` with its special values: a finite value, plus or minus
infinity, or NaN.  Finite values are rational numbers and finite arithmetic is exact (no
rounding, no overflow); there is one zero, which counts as positive.  The operations on the
special values follow IEEE 754, as the C program computes them: `inf * 0`, `inf - inf` and
`inf / inf` are NaN, and NaN propagates through every operation. -/
inductive FloatVal where
  | finite (q : ℚ)
  | infinite (negative : Bool)
  | nan

/-- Negation of a `float`. -/
def FloatVal.neg : FloatVal → FloatVal
  | .finite q => .finite (-q)
  | .infinite s => .infinite (!s)
  | .nan => .nan

/-- Sum of two `float`s: infinities of opposite sign add up to NaN. -/
def FloatVal.add : FloatVal → FloatVal → FloatVal
  | .nan, _ => .nan
  | _, .nan => .nan
  | .infinite s, .infinite s' => if s = s' then .infinite s else .nan
  | .infinite s, .finite _ => .infinite s
  | .finite _, .infinite s => .infinite s
  | .finite a, .finite b => .finite (a + b)

/-- Product of two `float`s: infinity times zero is NaN. -/
def FloatVal.mul : FloatVal → FloatVal → FloatVal
  | .nan, _ => .nan
  | _, .nan => .nan
  | .infinite s, .infinite s' => .infinite (xor s s')
  | .infinite s, .finite q => if q = 0 then .nan else .infinite (xor s (decide (q < 0)))
  | .finite q, .infinite s => if q = 0 then .nan else .infinite (xor s (decide (q < 0)))
  | .finite a, .finite b => .finite (a * b)

/-- Quotient of two `float`s: infinity over infinity and zero over zero are NaN, a nonzero
finite value over zero is an infinity. -/
def FloatVal.div : FloatVal → FloatVal → FloatVal
  | .nan, _ => .nan
  | _, .nan => .nan
  | .infinite _, .infinite _ => .nan
  | .infinite s, .finite q => .infinite (xor s (decide (q < 0)))
  | .finite _, .infinite _ => .finite 0
  | .finite a, .finite b =>
    if b = 0 then (if a = 0 then .nan else .infinite (decide (a < 0))) else .finite (a / b)

/-- The unary minus of `float`. -/
instance : Neg FloatVal := ⟨FloatVal.neg⟩

/-- The `+` of `float`. -/
instance : Add FloatVal := ⟨FloatVal.add⟩

/-- The binary `-` of `float`: `a - b` is `a + (-b)`. -/
instance : Sub FloatVal := ⟨fun a b => FloatVal.add a (FloatVal.neg b)⟩

/-- The `*` of `float`. -/
instance : Mul FloatVal := ⟨FloatVal.mul⟩

/-- The `/` of `float`. -/
instance : Div FloatVal := ⟨FloatVal.div⟩

/-- A decimal literal such as `9.82` is the finite value it denotes. -/
instance : OfScientific FloatVal := ⟨fun m s e => .finite (OfScientific.ofScientific m s e)⟩

/-- The conversion of the loop index `i` to `float`. -/
instance : NatCast FloatVal := ⟨fun n => .finite n⟩

/-- The conversion of the `int` `NSTEP` to `float`. -/
instance : IntCast FloatVal := ⟨fun n => .finite n⟩

/-! ## The derivative function and the Runge-Kutta step -/

/-- The body of `derivs` never reads its time argument. -/
theorem derivs_time_irrelevant {α : Type} [Field α] (sin cos : α → α) (x x' : α)
    (y : Fin 4 → α) :
    derivs sin cos x y = derivs sin cos x' y := rfl

/-- The time argument of `rungeKutta` only reaches `derivs`, which ignores it. -/
theorem rungeKutta_time_irrelevant {α : Type} [Field α] (sin cos : α → α) (x x' : α)
    (y : Fin 4 → α) (h : α) :
    rungeKutta sin cos x y h = rungeKutta sin cos x' y h := by
  simp only [rungeKutta, derivs]

/-- Over the reals the hardwired constants give `den1 = 2 - cos(θ2-θ1)^2`. -/
theorem den1_real (y : Fin 4 → ℝ) :
    den1 Real.cos y = 2 - Real.cos (y 2 - y 0) ^ 2 := by
  simp only [den1, del, M1, M2, L1]
  norm_num
  ring

/-- Over the reals the hardwired rod lengths give `den2 = den1`. -/
theorem den2_real (y : Fin 4 → ℝ) : den2 Real.cos y = den1 Real.cos y := by
  simp only [den2, L1, L2]
  norm_num

/-- The divisor `den1` is at least one, since `cos^2 ≤ 1`. -/
theorem one_le_den1 (y : Fin 4 → ℝ) : 1 ≤ den1 Real.cos y := by
  rw [den1_real]
  have h := Real.cos_sq_le_one (y 2 - y 0)
  linarith

/-- Claim C1.  Over the reals, with the hardwired constants, `derivs` returns for every
state and every time argument exactly the four components of the specification's formula
taken at `g = 9.82`, `L1 = L2 = 1`, `m1 = m2 = 1`: component 0 is `ω1`, component 1 is the
first quotient over `den1 = (m1+m2)*L1 - m2*L1*cos(del)^2`, component 2 is `ω2`, component 3
is the second quotient over `den2 = (L2/L1)*den1`. -/
theorem derivs_eq_specDerive (x : ℝ) (y : Fin 4 → ℝ) :
    derivs Real.sin Real.cos x y = specDerive 9.82 1 1 1 1 Real.sin Real.cos y := by
  funext i
  fin_cases i
  · simp [derivs, specDerive]
  · simp only [derivs, specDerive, den1, del, G, L1, L2, M1, M2]
    norm_num
    ring
  · simp [derivs, specDerive]
  · simp only [derivs, specDerive, den1, den2, del, G, L1, L2, M1, M2]
    norm_num
    ring

/-- Claim C2.  Over the reals, `rungeKutta(x, y, h)` is the classical RK4 update of the
specification with `derive = derivs`: `k1 = h*derive(y)`, `k2 = h*derive(y + 0.5*k1)`,
`k3 = h*derive(y + 0.5*k2)`, `k4 = h*derive(y + k3)` and output
`y + k1/6 + k2/3 + k3/3 + k4/6`, componentwise over the four state components. -/
theorem rungeKutta_eq_specRK4Step (x : ℝ) (y : Fin 4 → ℝ) (h : ℝ) :
    rungeKutta Real.sin Real.cos x y h
      = specRK4Step (derivs Real.sin Real.cos) x y h := by
  have e1 : ∀ k : Fin 4 → ℝ, (fun i => y i + 0.5 * k i) = y + (0.5 : ℝ) • k := by
    intro k; funext i; simp
  have e2 : ∀ k : Fin 4 → ℝ, (fun i => y i + k i) = y + k := by
    intro k; funext i; simp
  have e3 : ∀ d : Fin 4 → ℝ, (fun i => h * d i) = h • d := by
    intro d; funext i; simp
  have hx : x + (0.5 : ℝ) * h = x + h / 2 := by norm_num; ring
  funext i
  simp only [rungeKutta, specRK4Step, e1, e2, e3, hx]
  norm_num

/-- The state part of a printed line is the state that was printed. -/
theorem recordState_record {α : Type} (t : α) (y : Fin 4 → α) :
    recordState (record t y) = y := by
  funext i
  fin_cases i <;> simp [recordState, record]

/-- The array `t` has `NSTEP` entries. -/
theorem timeArray_length {α : Type} [Field α] (TMIN h : α) (NSTEP : ℤ) :
    (timeArray TMIN h NSTEP).length = NSTEP.toNat := by
  simp [timeArray]

/-- Entry `i` of the array `t` is `TMIN + h * i`. -/
theorem timeArray_getElem? {α : Type} [Field α] (TMIN h : α) (NSTEP : ℤ) (i : Nat)
    (hi : i < NSTEP.toNat) :
    (timeArray TMIN h NSTEP)[i]? = some (TMIN + h * (i : α)) := by
  simp [timeArray, List.getElem?_map, List.getElem?_range hi]

/-- One more step, taken first. -/
theorem rkIterate_succ {α : Type} [Field α] (sin cos : α → α) (h : α) (n : Nat)
    (y : Fin 4 → α) :
    rkIterate sin cos h (n + 1) y = rkIterate sin cos h n (rungeKutta sin cos 0 y h) := by
  simp [rkIterate, Function.iterate_succ_apply]

/-- One more step, taken last, at any time `x`. -/
theorem rkIterate_succ_outer {α : Type} [Field α] (sin cos : α → α) (h : α) (n : Nat)
    (y : Fin 4 → α) (x : α) :
    rkIterate sin cos h (n + 1) y = rungeKutta sin cos x (rkIterate sin cos h n y) h := by
  rw [rungeKutta_time_irrelevant sin cos x 0]
  simp [rkIterate, Function.iterate_succ_apply']

/-- The lines printed by `n` iterations of the integration loop started at index `i`, when
all indices `i, ..., i + n` lie inside the array `t`. -/
theorem mainLoop_timeArray {α : Type} [Field α] (sin cos : α → α) (TMIN h : α) (NSTEP : ℤ) :
    ∀ (n i : Nat) (y : Fin 4 → α), i + n < NSTEP.toNat →
      mainLoop sin cos (timeArray TMIN h NSTEP) h n i y
        = some ((List.range n).map
            (fun (j : Nat) => record (TMIN + h * ((i + j + 1 : Nat) : α))
              (rkIterate sin cos h (j + 1) y)))
  | 0, _, _, _ => by simp [mainLoop]
  | n + 1, i, y, hlt => by
    have h1 : (timeArray TMIN h NSTEP)[i]? = some (TMIN + h * (i : α)) :=
      timeArray_getElem? TMIN h NSTEP i (by omega)
    have h2 : (timeArray TMIN h NSTEP)[i + 1]? = some (TMIN + h * ((i + 1 : Nat) : α)) :=
      timeArray_getElem? TMIN h NSTEP (i + 1) (by omega)
    have ih := mainLoop_timeArray sin cos TMIN h NSTEP n (i + 1)
      (rungeKutta sin cos (TMIN + h * (i : α)) y h) (by omega)
    simp only [mainLoop, h1, h2, ih]
    rw [List.range_succ_eq_map, List.map_cons, List.map_map]
    simp only [rungeKutta_time_irrelevant sin cos (TMIN + h * (i : α)) 0 y h]
    congr 2
    apply List.map_congr_left
    intro j _
    simp only [Function.comp, rkIterate_succ sin cos h (j + 1) y]
    congr 4
    omega

/-- The lines printed by `main` for `NSTEP ≥ 1`: line `i` holds the time `TMIN + h * i` and the
state after `i` Runge-Kutta steps from the initial state. -/
theorem main_eq {α : Type} [Field α] (sin cos : α → α)
    (pi TMIN TMAX TH10 W10 TH20 W20 : α) (NSTEP : ℤ)
    (hN : 1 ≤ NSTEP) :
    main sin cos pi TMIN TMAX TH10 W10 TH20 W20 NSTEP
      = some ((List.range NSTEP.toNat).map
          (fun (i : Nat) => record (TMIN + stepSize TMIN TMAX NSTEP * (i : α))
            (rkIterate sin cos (stepSize TMIN TMAX NSTEP) i
              (initialState pi TH10 W10 TH20 W20)))) := by
  have h0 : (timeArray TMIN (stepSize TMIN TMAX NSTEP) NSTEP)[0]?
      = some (TMIN + stepSize TMIN TMAX NSTEP * ((0 : Nat) : α)) :=
    timeArray_getElem? TMIN _ NSTEP 0 (by omega)
  have hl := mainLoop_timeArray sin cos TMIN (stepSize TMIN TMAX NSTEP) NSTEP
    (NSTEP - 1).toNat 0 (initialState pi TH10 W10 TH20 W20) (by omega)
  have hn : NSTEP.toNat = (NSTEP - 1).toNat + 1 := by omega
  simp only [main, h0, hl]
  rw [hn, List.range_succ_eq_map, List.map_cons, List.map_map]
  congr 2
  apply List.map_congr_left
  intro j _
  simp [Function.comp]

/-! ## The run of `main` over the reals -/

/-- The step size over the reals. -/
theorem stepSize_real (TMIN TMAX : ℝ) (NSTEP : ℤ) :
    stepSize TMIN TMAX NSTEP = (TMAX - TMIN) / ((NSTEP : ℝ) - 1) := by
  simp only [stepSize]
  norm_num

/-- The initial state over the reals. -/
theorem initialState_real (TH10 W10 TH20 W20 : ℝ) :
    initialState Real.pi TH10 W10 TH20 W20
      = ![TH10 * Real.pi / 180, W10 * Real.pi / 180, TH20 * Real.pi / 180,
          W20 * Real.pi / 180] := by
  simp only [initialState]
  norm_num

/-- The state after `n` steps is the `n`-fold iterate of the step taken at any time `x`. -/
theorem rkIterate_eq_iterate {α : Type} [Field α] (sin cos : α → α) (x h : α) (n : Nat)
    (y : Fin 4 → α) :
    rkIterate sin cos h n y = (fun s => rungeKutta sin cos x s h)^[n] y := by
  have e : (fun s => rungeKutta sin cos x s h) = (fun s => rungeKutta sin cos 0 s h) := by
    funext s
    exact rungeKutta_time_irrelevant sin cos x 0 s h
  rw [e, rkIterate]

/-- Claim C3.  For `NSTEP ≥ 2` the run of `main` prints a list of records whose states
satisfy: `State[0]` is the initial condition converted from degrees to radians; for every
`i < NSTEP - 1`, `State[i+1] = rungeKutta(t[i], State[i], h)` with
`h = (TMAX - TMIN)/(NSTEP - 1)`; and `State[i]` is the `i`-fold iterate of the RK4 step
(taken at any time `x`) applied to the converted initial condition. -/
theorem main_states (TMIN TMAX TH10 W10 TH20 W20 : ℝ) (NSTEP : ℤ) (hN : 2 ≤ NSTEP) :
    ∃ recs, main Real.sin Real.cos Real.pi TMIN TMAX TH10 W10 TH20 W20 NSTEP = some recs ∧
      recs[0]?.map recordState
        = some ![TH10 * Real.pi / 180, W10 * Real.pi / 180, TH20 * Real.pi / 180,
            W20 * Real.pi / 180] ∧
      (∀ i : Nat, (i : ℤ) < NSTEP - 1 →
        ∃ ti si, (timeArray TMIN (stepSize TMIN TMAX NSTEP) NSTEP)[i]? = some ti ∧
          recs[i]?.map recordState = some si ∧
          recs[i + 1]?.map recordState
            = some (rungeKutta Real.sin Real.cos ti si ((TMAX - TMIN) / ((NSTEP : ℝ) - 1)))) ∧
      (∀ (i : Nat) (x : ℝ), (i : ℤ) < NSTEP →
        recs[i]?.map recordState
          = some ((fun s => rungeKutta Real.sin Real.cos x s ((TMAX - TMIN) / ((NSTEP : ℝ) - 1)))^[i]
              ![TH10 * Real.pi / 180, W10 * Real.pi / 180, TH20 * Real.pi / 180,
                W20 * Real.pi / 180])) := by
  refine ⟨_, main_eq Real.sin Real.cos Real.pi TMIN TMAX TH10 W10 TH20 W20 NSTEP (by omega),
    ?_, ?_, ?_⟩
  · have h0 : 0 < NSTEP.toNat := by omega
    simp [List.getElem?_range h0, recordState_record, rkIterate, initialState_real]
  · intro i hi
    have h1 : i < NSTEP.toNat := by omega
    have h2 : i + 1 < NSTEP.toNat := by omega
    refine ⟨_, rkIterate Real.sin Real.cos (stepSize TMIN TMAX NSTEP) i
      (initialState Real.pi TH10 W10 TH20 W20), timeArray_getElem? TMIN _ NSTEP i h1, ?_, ?_⟩
    · simp only [List.getElem?_map, List.getElem?_range h1, Option.map_some', recordState_record]
    · simp only [List.getElem?_map, List.getElem?_range h2, Option.map_some', recordState_record]
      rw [rkIterate_succ_outer, stepSize_real]
  · intro i x hi
    have h1 : i < NSTEP.toNat := by omega
    simp only [List.getElem?_map, List.getElem?_range h1, Option.map_some', recordState_record]
    rw [rkIterate_eq_iterate Real.sin Real.cos x, stepSize_real, initialState_real]

/-- The statement on the states of a run, at `0 10 90 0 -10 0 3`. -/
theorem main_states_witness :
    ∃ recs, main Real.sin Real.cos Real.pi 0 10 90 0 (-10) 0 3 = some recs ∧
      recs[0]?.map recordState
        = some ![90 * Real.pi / 180, 0 * Real.pi / 180, (-10) * Real.pi / 180,
            0 * Real.pi / 180] ∧
      (∀ i : Nat, (i : ℤ) < 3 - 1 →
        ∃ ti si, (timeArray (0 : ℝ) (stepSize 0 10 3) 3)[i]? = some ti ∧
          recs[i]?.map recordState = some si ∧
          recs[i + 1]?.map recordState
            = some (rungeKutta Real.sin Real.cos ti si ((10 - 0) / (((3 : ℤ) : ℝ) - 1)))) ∧
      (∀ (i : Nat) (x : ℝ), (i : ℤ) < 3 →
        recs[i]?.map recordState
          = some ((fun s => rungeKutta Real.sin Real.cos x s ((10 - 0) / (((3 : ℤ) : ℝ) - 1)))^[i]
              ![90 * Real.pi / 180, 0 * Real.pi / 180, (-10) * Real.pi / 180,
                0 * Real.pi / 180])) :=
  main_states 0 10 90 0 (-10) 0 3 (by decide)

/-- Claim C4.  For `NSTEP ≥ 2` the array `t` built by `main` has `NSTEP` entries with
`t[i] = TMIN + i*(TMAX-TMIN)/(NSTEP-1)` for every `i` in `[0, NSTEP-1]`, in particular
`t[0] = TMIN` and `t[NSTEP-1] = TMAX`; and the times printed by `main` are exactly this
array. -/
theorem time_grid (TMIN TMAX : ℝ) (NSTEP : ℤ) (hN : 2 ≤ NSTEP) :
    (timeArray TMIN (stepSize TMIN TMAX NSTEP) NSTEP).length = NSTEP.toNat ∧
    (∀ i : Nat, (i : ℤ) ≤ NSTEP - 1 →
      (timeArray TMIN (stepSize TMIN TMAX NSTEP) NSTEP)[i]?
        = some (TMIN + (i : ℝ) * (TMAX - TMIN) / ((NSTEP : ℝ) - 1))) ∧
    (timeArray TMIN (stepSize TMIN TMAX NSTEP) NSTEP)[0]? = some TMIN ∧
    (timeArray TMIN (stepSize TMIN TMAX NSTEP) NSTEP)[(NSTEP - 1).toNat]? = some TMAX ∧
    (∀ TH10 W10 TH20 W20 : ℝ,
      ∃ recs, main Real.sin Real.cos Real.pi TMIN TMAX TH10 W10 TH20 W20 NSTEP = some recs ∧
        recs.map (fun r => r.1) = timeArray TMIN (stepSize TMIN TMAX NSTEP) NSTEP) := by
  have hgen : ∀ i : Nat, (i : ℤ) ≤ NSTEP - 1 →
      (timeArray TMIN (stepSize TMIN TMAX NSTEP) NSTEP)[i]?
        = some (TMIN + (i : ℝ) * (TMAX - TMIN) / ((NSTEP : ℝ) - 1)) := by
    intro i hi
    rw [timeArray_getElem? TMIN _ NSTEP i (by omega), stepSize_real]
    congr 1
    ring
  have hne : (NSTEP : ℝ) - 1 ≠ 0 := by
    have : (2 : ℝ) ≤ (NSTEP : ℝ) := by exact_mod_cast hN
    linarith
  refine ⟨timeArray_length _ _ _, hgen, ?_, ?_, ?_⟩
  · rw [hgen 0 (by omega)]
    simp
  · rw [hgen (NSTEP - 1).toNat (by omega)]
    have hc : (((NSTEP - 1).toNat : ℕ) : ℝ) = (NSTEP : ℝ) - 1 := by
      have : (((NSTEP - 1).toNat : ℕ) : ℤ) = NSTEP - 1 := by omega
      exact_mod_cast this
    rw [hc]
    congr 1
    field_simp
  · intro TH10 W10 TH20 W20
    refine ⟨_, main_eq Real.sin Real.cos Real.pi TMIN TMAX TH10 W10 TH20 W20 NSTEP (by omega), ?_⟩
    simp [timeArray, record, Function.comp_def]

/-- The statement on the time array, at `TMIN = 0`, `TMAX = 10`, `NSTEP = 3`. -/
theorem time_grid_witness :
    (timeArray (0 : ℝ) (stepSize 0 10 3) 3).length = (3 : ℤ).toNat ∧
    (∀ i : Nat, (i : ℤ) ≤ 3 - 1 →
      (timeArray (0 : ℝ) (stepSize 0 10 3) 3)[i]?
        = some (0 + (i : ℝ) * (10 - 0) / (((3 : ℤ) : ℝ) - 1))) ∧
    (timeArray (0 : ℝ) (stepSize 0 10 3) 3)[0]? = some 0 ∧
    (timeArray (0 : ℝ) (stepSize 0 10 3) 3)[((3 : ℤ) - 1).toNat]? = some 10 ∧
    (∀ TH10 W10 TH20 W20 : ℝ,
      ∃ recs, main Real.sin Real.cos Real.pi 0 10 TH10 W10 TH20 W20 3 = some recs ∧
        recs.map (fun r => r.1) = timeArray (0 : ℝ) (stepSize 0 10 3) 3) :=
  time_grid 0 10 3 (by decide)

/-- A state at which `derivs` vanishes is a fixed point of `rungeKutta`. -/
theorem rungeKutta_eq_self_of_derivs_eq_zero {α : Type} [Field α] (sin cos : α → α)
    (x : α) (y : Fin 4 → α) (h : α) (hd : derivs sin cos x y = fun _ => 0) :
    rungeKutta sin cos x y h = y := by
  have hd' : ∀ x' : α, derivs sin cos x' y = fun _ => 0 := fun x' =>
    (derivs_time_irrelevant sin cos x' x y).trans hd
  funext i
  simp [rungeKutta, hd']

/-- At the hanging rest state `derivs` vanishes. -/
theorem derivs_zero (x : ℝ) : derivs Real.sin Real.cos x ![0, 0, 0, 0] = ![0, 0, 0, 0] := by
  funext i
  fin_cases i <;> simp [derivs, del]

/-- A state at which `derivs` vanishes is kept by any number of steps. -/
theorem rkIterate_eq_self_of_derivs_eq_zero {α : Type} [Field α] (sin cos : α → α)
    (y : Fin 4 → α) (h : α) (hd : derivs sin cos 0 y = fun _ => 0) (n : Nat) :
    rkIterate sin cos h n y = y := by
  induction n with
  | zero => simp [rkIterate]
  | succ n ih =>
    rw [rkIterate_succ, rungeKutta_eq_self_of_derivs_eq_zero sin cos 0 y h hd, ih]

/-- Claim C5, amended.  Over exact real arithmetic, where every value is finite, the step
size included: at the state `(0, 0, 0, 0)` the function `derivs` returns `(0, 0, 0, 0)`; for
every step size `h` and every number `n` of steps, `n` applications of `rungeKutta` leave
`(0, 0, 0, 0)` unchanged; and a run of `main` with `TH10 = W10 = TH20 = W20 = 0` records the
state `(0, 0, 0, 0)` at every one of its `NSTEP` samples. -/
theorem equilibrium_fixed_point :
    (∀ x : ℝ, derivs Real.sin Real.cos x ![0, 0, 0, 0] = ![0, 0, 0, 0]) ∧
    (∀ (x h : ℝ) (n : Nat),
      (fun s => rungeKutta Real.sin Real.cos x s h)^[n] ![0, 0, 0, 0] = ![0, 0, 0, 0]) ∧
    (∀ (TMIN TMAX : ℝ) (NSTEP : ℤ), 1 ≤ NSTEP →
      ∃ recs, main Real.sin Real.cos Real.pi TMIN TMAX 0 0 0 0 NSTEP = some recs ∧
        (recs.length : ℤ) = NSTEP ∧
        ∀ r ∈ recs, recordState r = ![0, 0, 0, 0]) := by
  have hz : ∀ x : ℝ, derivs Real.sin Real.cos x ![0, 0, 0, 0] = fun _ => 0 := by
    intro x
    rw [derivs_zero]
    funext i
    fin_cases i <;> rfl
  refine ⟨derivs_zero, ?_, ?_⟩
  · intro x h n
    rw [← rkIterate_eq_iterate Real.sin Real.cos x h n]
    exact rkIterate_eq_self_of_derivs_eq_zero Real.sin Real.cos _ h (hz 0) n
  · intro TMIN TMAX NSTEP hN
    have hi : initialState Real.pi (0 : ℝ) 0 0 0 = ![0, 0, 0, 0] := by
      simp [initialState]
    refine ⟨_, main_eq Real.sin Real.cos Real.pi TMIN TMAX 0 0 0 0 NSTEP hN, ?_, ?_⟩
    · simp only [List.length_map, List.length_range]
      omega
    · intro r hr
      simp only [List.mem_map, List.mem_range] at hr
      obtain ⟨i, _, rfl⟩ := hr
      rw [recordState_record, hi]
      exact rkIterate_eq_self_of_derivs_eq_zero Real.sin Real.cos _ _ (hz 0) i

/-- The run of `main` from rest with `TMIN = 0`, `TMAX = 10`, `NSTEP = 3`. -/
theorem equilibrium_fixed_point_witness :
    ∃ recs, main Real.sin Real.cos Real.pi 0 10 0 0 0 0 3 = some recs ∧
      (recs.length : ℤ) = 3 ∧ ∀ r ∈ recs, recordState r = ![0, 0, 0, 0] :=
  equilibrium_fixed_point.2.2 0 10 3 (by decide)

/-- Claim C7.  The result of `derivs` does not depend on its time argument, two calls on
the same state give the same result, and so the result of `rungeKutta` does not depend on
its time argument either. -/
theorem derivs_autonomous (x x' : ℝ) (y : Fin 4 → ℝ) (h : ℝ) :
    derivs Real.sin Real.cos x y = derivs Real.sin Real.cos x' y ∧
    rungeKutta Real.sin Real.cos x y h = rungeKutta Real.sin Real.cos x' y h :=
  ⟨derivs_time_irrelevant Real.sin Real.cos x x' y,
    rungeKutta_time_irrelevant Real.sin Real.cos x x' y h⟩

/-- Claim C8.  With the hardwired constants, `den1 = 0` holds exactly when
`cos(del)^2 = (M1+M2)*L1/(M2*L1)`, every state gives `den1 = 2 - cos(θ2-θ1)^2 ≥ 1` and
`den2 = den1 ≥ 1`, so neither divisor of `derivs` is zero. -/
theorem denominators_ne_zero (y : Fin 4 → ℝ) :
    (den1 Real.cos y = 0 ↔
      Real.cos (del y) ^ 2 = ((M1 : ℝ) + M2) * L1 / (M2 * L1)) ∧
    den1 Real.cos y = 2 - Real.cos (y 2 - y 0) ^ 2 ∧
    1 ≤ den1 Real.cos y ∧
    den2 Real.cos y = den1 Real.cos y ∧
    1 ≤ den2 Real.cos y ∧
    den1 Real.cos y ≠ 0 ∧
    den2 Real.cos y ≠ 0 := by
  have h1 := one_le_den1 y
  have h2 := den2_real y
  refine ⟨?_, den1_real y, h1, h2, by rw [h2]; exact h1, by linarith, by rw [h2]; linarith⟩
  have hc := Real.cos_sq_le_one (del y)
  constructor
  · intro h0
    linarith
  · intro hsq
    simp only [M1, M2, L1] at hsq
    norm_num at hsq
    linarith

/-- Entry `i` of a list built by mapping over `List.range n`. -/
theorem map_range_getElem? {β : Type} (f : Nat → β) (n i : Nat) (hi : i < n) :
    (List.map f (List.range n))[i]? = some (f i) := by
  simp [List.getElem?_range hi]

/-- Claim C6.  For `NSTEP ≥ 2`, `main` prints exactly `NSTEP` records: the initial record
followed by the `NSTEP - 1` records of the integration loop, record `i` being
`(t[i], θ1, ω1, θ2, ω2)` for the state after `i` steps.  On the reference input
`0 10 90 0 -10 0 1000` it prints exactly 1000 records, the first is
`(0, π/2, 0, -π/18, 0)` and the last has `t = 10`. -/
theorem main_emits_NSTEP_records :
    (∀ (TMIN TMAX TH10 W10 TH20 W20 : ℝ) (NSTEP : ℤ), 2 ≤ NSTEP →
      ∃ recs rest,
        main Real.sin Real.cos Real.pi TMIN TMAX TH10 W10 TH20 W20 NSTEP = some recs ∧
        (recs.length : ℤ) = NSTEP ∧
        mainLoop Real.sin Real.cos (timeArray TMIN (stepSize TMIN TMAX NSTEP) NSTEP)
          (stepSize TMIN TMAX NSTEP) (NSTEP - 1).toNat 0
          (initialState Real.pi TH10 W10 TH20 W20) = some rest ∧
        (rest.length : ℤ) = NSTEP - 1 ∧
        recs = record TMIN (initialState Real.pi TH10 W10 TH20 W20) :: rest ∧
        ∀ i : Nat, (i : ℤ) < NSTEP →
          ∃ (t : ℝ) (s : Fin 4 → ℝ),
            (timeArray TMIN (stepSize TMIN TMAX NSTEP) NSTEP)[i]? = some t ∧
            s = (fun y => rungeKutta Real.sin Real.cos t y (stepSize TMIN TMAX NSTEP))^[i]
                  (initialState Real.pi TH10 W10 TH20 W20) ∧
            recs[i]? = some (t, s 0, s 1, s 2, s 3)) ∧
    (∃ recs, main Real.sin Real.cos Real.pi 0 10 90 0 (-10) 0 1000 = some recs ∧
      recs.length = 1000 ∧
      recs.head? = some (0, Real.pi / 2, 0, -Real.pi / 18, 0) ∧
      ∃ θ1 ω1 θ2 ω2 : ℝ, recs.getLast? = some (10, θ1, ω1, θ2, ω2)) := by
  constructor
  · intro TMIN TMAX TH10 W10 TH20 W20 NSTEP hN
    have hl := mainLoop_timeArray Real.sin Real.cos TMIN (stepSize TMIN TMAX NSTEP) NSTEP
      (NSTEP - 1).toNat 0 (initialState Real.pi TH10 W10 TH20 W20) (by omega)
    have hm := main_eq Real.sin Real.cos Real.pi TMIN TMAX TH10 W10 TH20 W20 NSTEP (by omega)
    have h0 : (timeArray TMIN (stepSize TMIN TMAX NSTEP) NSTEP)[0]?
        = some (TMIN + stepSize TMIN TMAX NSTEP * ((0 : Nat) : ℝ)) :=
      timeArray_getElem? TMIN _ NSTEP 0 (by omega)
    refine ⟨_, _, hm, ?_, hl, ?_, ?_, ?_⟩
    · simp only [List.length_map, List.length_range]
      omega
    · simp only [List.length_map, List.length_range]
      omega
    · have hm' := hm
      simp only [main, h0, hl] at hm'
      simp only [Nat.cast_zero, mul_zero, add_zero, Option.some.injEq] at hm'
      exact hm'.symm
    · intro i hi
      have h1 : i < NSTEP.toNat := by omega
      refine ⟨_, _, timeArray_getElem? TMIN _ NSTEP i h1, rfl, ?_⟩
      rw [← rkIterate_eq_iterate]
      simp [List.getElem?_range h1, record]
  · have hm := main_eq Real.sin Real.cos Real.pi 0 10 90 0 (-10) 0 1000 (by decide)
    have hn : (1000 : ℤ).toNat = 1000 := by decide
    rw [hn] at hm
    refine ⟨_, hm, ?_, ?_, ?_⟩
    · simp only [List.length_map, List.length_range]
    · simp only [List.head?_map, List.head?_range]
      simp [record, rkIterate, initialState_real]
      constructor <;> ring
    · have ht : (0 : ℝ) + stepSize 0 10 1000 * ((999 : Nat) : ℝ) = 10 := by
        rw [stepSize_real]
        norm_num
      refine ⟨rkIterate Real.sin Real.cos (stepSize 0 10 1000) 999
          (initialState Real.pi 90 0 (-10) 0) 0,
        rkIterate Real.sin Real.cos (stepSize 0 10 1000) 999
          (initialState Real.pi 90 0 (-10) 0) 1,
        rkIterate Real.sin Real.cos (stepSize 0 10 1000) 999
          (initialState Real.pi 90 0 (-10) 0) 2,
        rkIterate Real.sin Real.cos (stepSize 0 10 1000) 999
          (initialState Real.pi 90 0 (-10) 0) 3, ?_⟩
      rw [List.getLast?_map, List.getLast?_range, if_neg (by decide), Option.map_some']
      exact congrArg some (Prod.ext ht rfl)

/-- The count and layout of the printed records, at `0 10 90 0 -10 0 3`. -/
theorem main_emits_NSTEP_records_witness :
    ∃ recs rest,
      main Real.sin Real.cos Real.pi 0 10 90 0 (-10) 0 3 = some recs ∧
      (recs.length : ℤ) = 3 ∧
      mainLoop Real.sin Real.cos (timeArray (0 : ℝ) (stepSize 0 10 3) 3)
        (stepSize 0 10 3) ((3 : ℤ) - 1).toNat 0
        (initialState Real.pi 90 0 (-10) 0) = some rest ∧
      (rest.length : ℤ) = 3 - 1 ∧
      recs = record 0 (initialState Real.pi 90 0 (-10) 0) :: rest ∧
      ∀ i : Nat, (i : ℤ) < 3 →
        ∃ (t : ℝ) (s : Fin 4 → ℝ),
          (timeArray (0 : ℝ) (stepSize 0 10 3) 3)[i]? = some t ∧
          s = (fun y => rungeKutta Real.sin Real.cos t y (stepSize 0 10 3))^[i]
                (initialState Real.pi 90 0 (-10) 0) ∧
          recs[i]? = some (t, s 0, s 1, s 2, s 3) :=
  main_emits_NSTEP_records.1 0 10 90 0 (-10) 0 3 (by decide)

/-- Claim C9 fails as stated: the run of `main` with `TMIN = TMAX = 0` and `NSTEP = 2`
prints two records with the same time, so `t[0] < t[1]` does not hold. -/
theorem times_not_strictly_increasing :
    (2 : ℤ) ≤ 2 ∧
    ∃ recs, main Real.sin Real.cos Real.pi 0 0 0 0 0 0 2 = some recs ∧
      ∃ a b, recs[0]? = some a ∧ recs[0 + 1]? = some b ∧ ¬ a.1 < b.1 := by
  refine ⟨le_refl _, _, main_eq Real.sin Real.cos Real.pi 0 0 0 0 0 0 2 (by decide), ?_⟩
  have hn : (2 : ℤ).toNat = 2 := by decide
  rw [hn]
  exact ⟨_, _, map_range_getElem? _ 2 0 (by decide), map_range_getElem? _ 2 (0 + 1) (by decide),
    by simp [record, stepSize]⟩

/-- Claim C9, amended.  Over exact real arithmetic, for `NSTEP ≥ 2` and `TMIN < TMAX` the
time values are strictly increasing, `t[i] < t[i+1]` for every `i < NSTEP - 1`, both in the
array `t` and in the records printed by `main`. -/
theorem times_strictly_increasing (TMIN TMAX : ℝ) (NSTEP : ℤ) (hN : 2 ≤ NSTEP)
    (hT : TMIN < TMAX) :
    (∀ i : Nat, (i : ℤ) < NSTEP - 1 →
      ∃ a b, (timeArray TMIN (stepSize TMIN TMAX NSTEP) NSTEP)[i]? = some a ∧
        (timeArray TMIN (stepSize TMIN TMAX NSTEP) NSTEP)[i + 1]? = some b ∧ a < b) ∧
    (∀ TH10 W10 TH20 W20 : ℝ,
      ∃ recs, main Real.sin Real.cos Real.pi TMIN TMAX TH10 W10 TH20 W20 NSTEP = some recs ∧
        ∀ i : Nat, (i : ℤ) < NSTEP - 1 →
          ∃ a b, recs[i]? = some a ∧ recs[i + 1]? = some b ∧ a.1 < b.1) := by
  have hh : 0 < stepSize TMIN TMAX NSTEP := by
    rw [stepSize_real]
    have : (2 : ℝ) ≤ (NSTEP : ℝ) := by exact_mod_cast hN
    apply div_pos <;> linarith
  have key : ∀ i : Nat, TMIN + stepSize TMIN TMAX NSTEP * (i : ℝ)
      < TMIN + stepSize TMIN TMAX NSTEP * ((i + 1 : Nat) : ℝ) := by
    intro i
    push_cast
    nlinarith
  constructor
  · intro i hi
    exact ⟨_, _, timeArray_getElem? TMIN _ NSTEP i (by omega),
      timeArray_getElem? TMIN _ NSTEP (i + 1) (by omega), key i⟩
  · intro TH10 W10 TH20 W20
    refine ⟨_, main_eq Real.sin Real.cos Real.pi TMIN TMAX TH10 W10 TH20 W20 NSTEP (by omega), ?_⟩
    intro i hi
    have h1 : i < NSTEP.toNat := by omega
    have h2 : i + 1 < NSTEP.toNat := by omega
    exact ⟨_, _, map_range_getElem? _ _ i h1, map_range_getElem? _ _ (i + 1) h2, key i⟩

/-- Strictly increasing times at `TMIN = 0`, `TMAX = 10`, `NSTEP = 3`. -/
theorem times_strictly_increasing_witness :
    (∀ i : Nat, (i : ℤ) < 3 - 1 →
      ∃ a b, (timeArray (0 : ℝ) (stepSize 0 10 3) 3)[i]? = some a ∧
        (timeArray (0 : ℝ) (stepSize 0 10 3) 3)[i + 1]? = some b ∧ a < b) ∧
    (∀ TH10 W10 TH20 W20 : ℝ,
      ∃ recs, main Real.sin Real.cos Real.pi 0 10 TH10 W10 TH20 W20 3 = some recs ∧
        ∀ i : Nat, (i : ℤ) < 3 - 1 →
          ∃ a b, recs[i]? = some a ∧ recs[i + 1]? = some b ∧ a.1 < b.1) :=
  times_strictly_increasing 0 10 3 (by decide) (by norm_num)

/-! ## One small step from one degree -/

/-- Component 0 of `derivs` is the first angular velocity. -/
theorem derivs_apply_zero {α : Type} [Field α] (sin cos : α → α) (x : α) (y : Fin 4 → α) :
    derivs sin cos x y 0 = y 1 := rfl

/-- Component 2 of `derivs` is the second angular velocity. -/
theorem derivs_apply_two {α : Type} [Field α] (sin cos : α → α) (x : α) (y : Fin 4 → α) :
    derivs sin cos x y 2 = y 3 := rfl

/-- Component 1 of `derivs` over the reals, constants evaluated. -/
theorem derivs_apply_one_real (x : ℝ) (y : Fin 4 → ℝ) :
    derivs Real.sin Real.cos x y 1
      = (y 1 * y 1 * (Real.sin (y 2 - y 0) * Real.cos (y 2 - y 0))
          + 9.82 * (Real.sin (y 2) * Real.cos (y 2 - y 0))
          + y 3 * y 3 * Real.sin (y 2 - y 0)
          - 2 * 9.82 * Real.sin (y 0)) / den1 Real.cos y := by
  show (_ : ℝ) / _ = _ / _
  congr 1
  simp only [del, G, L1, L2, M1, M2]
  norm_num
  ring

/-- Component 3 of `derivs` over the reals, constants evaluated, over the divisor `den1`. -/
theorem derivs_apply_three_real (x : ℝ) (y : Fin 4 → ℝ) :
    derivs Real.sin Real.cos x y 3
      = (-(y 3 * y 3 * (Real.sin (y 2 - y 0) * Real.cos (y 2 - y 0)))
          + 2 * 9.82 * (Real.sin (y 0) * Real.cos (y 2 - y 0))
          - 2 * (y 1 * y 1) * Real.sin (y 2 - y 0)
          - 2 * 9.82 * Real.sin (y 2)) / den1 Real.cos y := by
  rw [← den2_real]
  show (_ : ℝ) / _ = _ / _
  congr 1
  simp only [del, G, L1, L2, M1, M2]
  norm_num
  ring

/-- Dividing by `den1 ≥ 1` does not increase the absolute value. -/
theorem abs_div_den1_le (n : ℝ) (y : Fin 4 → ℝ) : |n / den1 Real.cos y| ≤ |n| := by
  have h1 := one_le_den1 y
  rw [abs_div, abs_of_pos (by linarith : (0 : ℝ) < den1 Real.cos y)]
  exact div_le_self (abs_nonneg n) h1

/-- A product of a sine and a cosine is at most one in absolute value. -/
theorem abs_sin_mul_cos_le_one (u v : ℝ) : |Real.sin u * Real.cos v| ≤ 1 := by
  have hs := Real.abs_sin_le_one u
  have hc := Real.abs_cos_le_one v
  rw [abs_mul]
  nlinarith [abs_nonneg (Real.sin u), abs_nonneg (Real.cos v)]

/-- Every angular acceleration computed by `derivs` is bounded by the squared velocities
plus a multiple of gravity. -/
theorem abs_derivs_accel_le (x : ℝ) (y : Fin 4 → ℝ) :
    |derivs Real.sin Real.cos x y 1| ≤ 3 * 9.82 + y 1 * y 1 + y 3 * y 3 ∧
    |derivs Real.sin Real.cos x y 3| ≤ 4 * 9.82 + y 3 * y 3 + 2 * (y 1 * y 1) := by
  have hA : 0 ≤ y 1 * y 1 := mul_self_nonneg _
  have hB : 0 ≤ y 3 * y 3 := mul_self_nonneg _
  have p1 := abs_le.mp (abs_sin_mul_cos_le_one (y 2 - y 0) (y 2 - y 0))
  have p2 := abs_le.mp (abs_sin_mul_cos_le_one (y 2) (y 2 - y 0))
  have p3 := abs_le.mp (abs_sin_mul_cos_le_one (y 0) (y 2 - y 0))
  have s0 := abs_le.mp (Real.abs_sin_le_one (y 0))
  have s2 := abs_le.mp (Real.abs_sin_le_one (y 2))
  have sd := abs_le.mp (Real.abs_sin_le_one (y 2 - y 0))
  constructor
  · rw [derivs_apply_one_real]
    refine (abs_div_den1_le _ y).trans ?_
    rw [abs_le]
    constructor <;> nlinarith [mul_nonneg hA (sub_nonneg.mpr p1.2),
      mul_nonneg hA (sub_nonneg.mpr p1.1), mul_nonneg hB (sub_nonneg.mpr sd.2),
      mul_nonneg hB (sub_nonneg.mpr sd.1)]
  · rw [derivs_apply_three_real]
    refine (abs_div_den1_le _ y).trans ?_
    rw [abs_le]
    constructor <;> nlinarith [mul_nonneg hB (sub_nonneg.mpr p1.2),
      mul_nonneg hB (sub_nonneg.mpr p1.1), mul_nonneg hA (sub_nonneg.mpr sd.2),
      mul_nonneg hA (sub_nonneg.mpr sd.1)]

/-- The angular acceleration of the first rod is negative when the first rod is displaced
to the positive side by at most a right angle and the second rod lags behind it by at most a
right angle. -/
theorem derivs_accel_one_neg (x : ℝ) (y : Fin 4 → ℝ) (h0 : 0 < y 0)
    (h0' : y 0 ≤ Real.pi / 2) (h2 : y 2 < y 0) (h2' : y 0 - Real.pi / 2 ≤ y 2) :
    derivs Real.sin Real.cos x y 1 < 0 := by
  have hpi := Real.pi_gt_three
  rw [derivs_apply_one_real]
  apply div_neg_of_neg_of_pos _ (by linarith [one_le_den1 y])
  have hsd : Real.sin (y 2 - y 0) < 0 :=
    Real.sin_neg_of_neg_of_neg_pi_lt (by linarith) (by linarith)
  have hcd : 0 ≤ Real.cos (y 2 - y 0) :=
    Real.cos_nonneg_of_neg_pi_div_two_le_of_le (by linarith) (by linarith)
  have hcd' : Real.cos (y 2 - y 0) ≤ 1 := Real.cos_le_one _
  have hs0 : 0 < Real.sin (y 0) := Real.sin_pos_of_pos_of_lt_pi h0 (by linarith)
  have hlt : Real.sin (y 2) < Real.sin (y 0) :=
    Real.sin_lt_sin_of_lt_of_le_pi_div_two (by linarith) h0' h2
  have t1 : y 1 * y 1 * (Real.sin (y 2 - y 0) * Real.cos (y 2 - y 0)) ≤ 0 :=
    mul_nonpos_of_nonneg_of_nonpos (mul_self_nonneg _)
      (mul_nonpos_of_nonpos_of_nonneg hsd.le hcd)
  have t3 : y 3 * y 3 * Real.sin (y 2 - y 0) ≤ 0 :=
    mul_nonpos_of_nonneg_of_nonpos (mul_self_nonneg _) hsd.le
  have t2 : Real.sin (y 2) * Real.cos (y 2 - y 0) < 2 * Real.sin (y 0) := by
    rcases le_or_lt (Real.sin (y 2)) 0 with hneg | hpos
    · have : Real.sin (y 2) * Real.cos (y 2 - y 0) ≤ 0 :=
        mul_nonpos_of_nonpos_of_nonneg hneg hcd
      linarith
    · have : Real.sin (y 2) * Real.cos (y 2 - y 0) ≤ Real.sin (y 2) := by
        nlinarith
      linarith
  norm_num
  linarith

/-- The stages of `rungeKutta`: the three intermediate states `yt` and the output. -/
theorem rungeKutta_stages {α : Type} [Field α] (sin cos : α → α) (x : α) (y : Fin 4 → α)
    (h : α) :
    ∃ yt1 yt2 yt3 : Fin 4 → α,
      (∀ i, yt1 i = y i + 0.5 * (h * derivs sin cos x y i)) ∧
      (∀ i, yt2 i = y i + 0.5 * (h * derivs sin cos (x + 0.5 * h) yt1 i)) ∧
      (∀ i, yt3 i = y i + h * derivs sin cos (x + 0.5 * h) yt2 i) ∧
      ∀ i, rungeKutta sin cos x y h i
        = y i + h * derivs sin cos x y i / 6.0
            + h * derivs sin cos (x + 0.5 * h) yt1 i / 3.0
            + h * derivs sin cos (x + 0.5 * h) yt2 i / 3.0
            + h * derivs sin cos (x + h) yt3 i / 6.0 :=
  ⟨fun i => y i + 0.5 * (h * derivs sin cos x y i),
    fun i => y i + 0.5 * (h * derivs sin cos (x + 0.5 * h)
      (fun i => y i + 0.5 * (h * derivs sin cos x y i)) i),
    fun i => y i + h * derivs sin cos (x + 0.5 * h)
      (fun i => y i + 0.5 * (h * derivs sin cos (x + 0.5 * h)
        (fun i => y i + 0.5 * (h * derivs sin cos x y i)) i)) i,
    fun _ => rfl, fun _ => rfl, fun _ => rfl, fun _ => rfl⟩

/-- A derivative bounded by `D`, scaled by `c * h` with `0 ≤ c ≤ 1` and `0 ≤ h ≤ 1/1000`. -/
theorem abs_scaled_le (c h d D : ℝ) (hc0 : 0 ≤ c) (hc1 : c ≤ 1) (hh0 : 0 ≤ h)
    (hh1 : h ≤ 1 / 1000) (hd : |d| ≤ D) : |c * (h * d)| ≤ D / 1000 := by
  rw [abs_mul, abs_mul, abs_of_nonneg hc0, abs_of_nonneg hh0]
  have hch : c * h ≤ 1 / 1000 := by nlinarith
  nlinarith [mul_nonneg (sub_nonneg.mpr hch) (abs_nonneg d), abs_nonneg d]

/-- Near the state `(π/180, 0, 0, 0)` the first angular acceleration is negative and all
four derivatives are bounded. -/
theorem derivs_near_one_degree (x : ℝ) (s : Fin 4 → ℝ)
    (hs0 : |s 0 - Real.pi / 180| ≤ 1 / 10000) (hs1 : |s 1| ≤ 1 / 20)
    (hs2 : |s 2| ≤ 1 / 10000) (hs3 : |s 3| ≤ 1 / 20) :
    derivs Real.sin Real.cos x s 1 < 0 ∧
    |derivs Real.sin Real.cos x s 0| ≤ 1 / 20 ∧
    |derivs Real.sin Real.cos x s 1| ≤ 43 ∧
    |derivs Real.sin Real.cos x s 2| ≤ 1 / 20 ∧
    |derivs Real.sin Real.cos x s 3| ≤ 43 := by
  have hpi := Real.pi_gt_three
  have hpi' := Real.pi_le_four
  have a0 := abs_le.mp hs0
  have a1 := abs_le.mp hs1
  have a2 := abs_le.mp hs2
  have a3 := abs_le.mp hs3
  have q1 : s 1 * s 1 ≤ 1 / 400 := by nlinarith
  have q3 : s 3 * s 3 ≤ 1 / 400 := by nlinarith
  have hb := abs_derivs_accel_le x s
  refine ⟨?_, ?_, ?_, ?_, ?_⟩
  · apply derivs_accel_one_neg <;> linarith
  · rw [derivs_apply_zero]; exact hs1
  · refine hb.1.trans ?_
    norm_num
    linarith
  · rw [derivs_apply_two]; exact hs3
  · refine hb.2.trans ?_
    norm_num
    linarith

/-- A stage state `y + c * (h * d)` built from a bounded derivative `d` stays near
`y = (π/180, 0, 0, 0)` when `0 ≤ c ≤ 1` and `0 ≤ h ≤ 1/1000`. -/
theorem stage_near_one_degree (s d : Fin 4 → ℝ) (c h : ℝ) (hc0 : 0 ≤ c) (hc1 : c ≤ 1)
    (hh0 : 0 ≤ h) (hh1 : h ≤ 1 / 1000)
    (hd0 : |d 0| ≤ 1 / 20) (hd1 : |d 1| ≤ 43) (hd2 : |d 2| ≤ 1 / 20) (hd3 : |d 3| ≤ 43)
    (hs : ∀ i, s i = (![Real.pi / 180, 0, 0, 0] : Fin 4 → ℝ) i + c * (h * d i)) :
    |s 0 - Real.pi / 180| ≤ 1 / 10000 ∧ |s 1| ≤ 1 / 20 ∧ |s 2| ≤ 1 / 10000 ∧
      |s 3| ≤ 1 / 20 := by
  have e0 : s 0 - Real.pi / 180 = c * (h * d 0) := by rw [hs 0]; simp
  have e1 : s 1 = c * (h * d 1) := by rw [hs 1]; simp
  have e2 : s 2 = c * (h * d 2) := by rw [hs 2]; simp
  have e3 : s 3 = c * (h * d 3) := by rw [hs 3]; simp
  rw [e0, e1, e2, e3]
  have b0 := abs_scaled_le c h (d 0) _ hc0 hc1 hh0 hh1 hd0
  have b1 := abs_scaled_le c h (d 1) _ hc0 hc1 hh0 hh1 hd1
  have b2 := abs_scaled_le c h (d 2) _ hc0 hc1 hh0 hh1 hd2
  have b3 := abs_scaled_le c h (d 3) _ hc0 hc1 hh0 hh1 hd3
  refine ⟨b0.trans ?_, b1.trans ?_, b2.trans ?_, b3.trans ?_⟩ <;> norm_num

/-- Claim C10.  From the initial state of `TH10 = 1` degree and everything else zero, that
is `(π/180, 0, 0, 0)`, one `rungeKutta` step of any size `0 < h ≤ 0.001` gives a state whose
`ω1` component is strictly negative. -/
theorem small_angle_restoring (x h : ℝ) (hpos : 0 < h) (hle : h ≤ 0.001) :
    initialState Real.pi 1 0 0 0 = ![Real.pi / 180, 0, 0, 0] ∧
    rungeKutta Real.sin Real.cos x (initialState Real.pi 1 0 0 0) h 1 < 0 := by
  have hinit : initialState Real.pi 1 0 0 0 = ![Real.pi / 180, 0, 0, 0] := by
    rw [initialState_real]
    norm_num
  refine ⟨hinit, ?_⟩
  rw [hinit]
  have hle' : h ≤ 1 / 1000 := by norm_num at hle ⊢; exact hle
  have hhalf0 : (0 : ℝ) ≤ 0.5 := by norm_num
  have hhalf1 : (0.5 : ℝ) ≤ 1 := by norm_num
  obtain ⟨yt1, yt2, yt3, e1, e2, e3, eo⟩ :=
    rungeKutta_stages Real.sin Real.cos x ![Real.pi / 180, 0, 0, 0] h
  -- first stage
  obtain ⟨n1, b10, b11, b12, b13⟩ := derivs_near_one_degree x ![Real.pi / 180, 0, 0, 0]
    (by simp) (by simp) (by simp) (by simp)
  obtain ⟨p10, p11, p12, p13⟩ := stage_near_one_degree yt1 _ 0.5 h hhalf0 hhalf1 hpos.le hle'
    b10 b11 b12 b13 e1
  -- second stage
  obtain ⟨n2, b20, b21, b22, b23⟩ := derivs_near_one_degree (x + 0.5 * h) yt1 p10 p11 p12 p13
  obtain ⟨p20, p21, p22, p23⟩ := stage_near_one_degree yt2 _ 0.5 h hhalf0 hhalf1 hpos.le hle'
    b20 b21 b22 b23 e2
  -- third stage
  obtain ⟨n3, b30, b31, b32, b33⟩ := derivs_near_one_degree (x + 0.5 * h) yt2 p20 p21 p22 p23
  obtain ⟨p30, p31, p32, p33⟩ := stage_near_one_degree yt3 _ 1 h zero_le_one le_rfl hpos.le hle'
    b30 b31 b32 b33 (fun i => by rw [e3 i, one_mul])
  -- fourth stage
  obtain ⟨n4, -⟩ := derivs_near_one_degree (x + h) yt3 p30 p31 p32 p33
  rw [eo 1]
  have m1 := mul_neg_of_pos_of_neg hpos n1
  have m2 := mul_neg_of_pos_of_neg hpos n2
  have m3 := mul_neg_of_pos_of_neg hpos n3
  have m4 := mul_neg_of_pos_of_neg hpos n4
  have hy1 : (![Real.pi / 180, 0, 0, 0] : Fin 4 → ℝ) 1 = 0 := by simp
  rw [hy1]
  norm_num
  linarith

/-- The step of size `h = 0.001` from one degree. -/
theorem small_angle_restoring_witness :
    (0 : ℝ) < 0.001 ∧
    initialState Real.pi 1 0 0 0 = ![Real.pi / 180, 0, 0, 0] ∧
    rungeKutta Real.sin Real.cos 0 (initialState Real.pi 1 0 0 0) 0.001 1 < 0 :=
  ⟨by norm_num, small_angle_restoring 0 0.001 (by norm_num) (le_refl _)⟩

/-! ## Symmetries of the derivative function and of the step -/

/-- A symmetry of `derivs` is a symmetry of `rungeKutta`.  Let `T y = σ * y + s`
componentwise, and let `ε` scale the step; if `ε * derivs (T y) = σ * derivs y` componentwise
for every state, then `rungeKutta (T y) (ε * h) = T (rungeKutta y h)`. -/
theorem rungeKutta_equivariant {α : Type} [Field α] (sin cos : α → α)
    (T : (Fin 4 → α) → (Fin 4 → α)) (σ s : Fin 4 → α) (ε : α)
    (hT : ∀ y i, T y i = σ i * y i + s i)
    (hD : ∀ (x x' : α) (y : Fin 4 → α) (i : Fin 4),
      ε * derivs sin cos x (T y) i = σ i * derivs sin cos x' y i)
    (x x' : α) (y : Fin 4 → α) (h : α) :
    rungeKutta sin cos x (T y) (ε * h) = T (rungeKutta sin cos x' y h) := by
  obtain ⟨a1, a2, a3, ea1, ea2, ea3, eao⟩ := rungeKutta_stages sin cos x' y h
  obtain ⟨b1, b2, b3, eb1, eb2, eb3, ebo⟩ := rungeKutta_stages sin cos x (T y) (ε * h)
  have h1 : b1 = T a1 := by
    funext i
    rw [eb1 i, hT a1 i, ea1 i, hT y i]
    linear_combination (0.5 * h) * hD x x' y i
  have h2 : b2 = T a2 := by
    funext i
    rw [eb2 i, hT a2 i, ea2 i, hT y i, h1]
    linear_combination (0.5 * h) * hD (x + 0.5 * (ε * h)) (x' + 0.5 * h) a1 i
  have h3 : b3 = T a3 := by
    funext i
    rw [eb3 i, hT a3 i, ea3 i, hT y i, h2]
    linear_combination h * hD (x + 0.5 * (ε * h)) (x' + 0.5 * h) a2 i
  funext i
  rw [ebo i, hT (rungeKutta sin cos x' y h) i, eao i, hT y i, h1, h2, h3]
  linear_combination (h / 6.0) * hD x x' y i
    + (h / 3.0) * hD (x + 0.5 * (ε * h)) (x' + 0.5 * h) a1 i
    + (h / 3.0) * hD (x + 0.5 * (ε * h)) (x' + 0.5 * h) a2 i
    + (h / 6.0) * hD (x + ε * h) (x' + h) a3 i

/-- The result of `derivs` is determined by the two velocities, the sines of the two angles
and the sine and cosine of their difference. -/
theorem derivs_congr {α : Type} [Field α] (sin cos : α → α) (x x' : α) (y z : Fin 4 → α)
    (h1 : z 1 = y 1) (h3 : z 3 = y 3) (hs0 : sin (z 0) = sin (y 0))
    (hs2 : sin (z 2) = sin (y 2)) (hsd : sin (del z) = sin (del y))
    (hcd : cos (del z) = cos (del y)) :
    derivs sin cos x z = derivs sin cos x' y := by
  simp only [derivs, den1, den2, h1, h3, hs0, hs2, hsd, hcd]

/-- Adding whole turns to the two angles does not change `derivs`. -/
theorem derivs_add_turns (x x' : ℝ) (k m : ℤ) (y : Fin 4 → ℝ) :
    derivs Real.sin Real.cos x
        (fun i => y i + (![2 * Real.pi * k, 0, 2 * Real.pi * m, 0] : Fin 4 → ℝ) i)
      = derivs Real.sin Real.cos x' y := by
  have hd : (y 2 + 2 * Real.pi * m) - (y 0 + 2 * Real.pi * k)
      = (y 2 - y 0) + ((m - k : ℤ) : ℝ) * (2 * Real.pi) := by
    push_cast
    ring
  have h0 : y 0 + 2 * Real.pi * k = y 0 + (k : ℝ) * (2 * Real.pi) := by ring
  have h2 : y 2 + 2 * Real.pi * m = y 2 + (m : ℝ) * (2 * Real.pi) := by ring
  apply derivs_congr
  · simp
  · simp
  · show Real.sin (y 0 + 2 * Real.pi * k) = _
    rw [h0, Real.sin_add_int_mul_two_pi]
  · show Real.sin (y 2 + 2 * Real.pi * m) = _
    rw [h2, Real.sin_add_int_mul_two_pi]
  · show Real.sin ((y 2 + 2 * Real.pi * m) - (y 0 + 2 * Real.pi * k)) = _
    rw [hd, Real.sin_add_int_mul_two_pi, del]
  · show Real.cos ((y 2 + 2 * Real.pi * m) - (y 0 + 2 * Real.pi * k)) = _
    rw [hd, Real.cos_add_int_mul_two_pi, del]

/-- Claim C12.  Angle periodicity: adding `2πk` to `θ1` and `2πm` to `θ2`, for integers `k`
and `m`, leaves the result of `derivs` unchanged, and the RK4 step commutes with the shift:
the step from the shifted state is the step from the original state plus
`(2πk, 0, 2πm, 0)`. -/
theorem angle_periodicity (x h θ1 ω1 θ2 ω2 : ℝ) (k m : ℤ) :
    derivs Real.sin Real.cos x ![θ1 + 2 * Real.pi * k, ω1, θ2 + 2 * Real.pi * m, ω2]
      = derivs Real.sin Real.cos x ![θ1, ω1, θ2, ω2] ∧
    rungeKutta Real.sin Real.cos x
        ![θ1 + 2 * Real.pi * k, ω1, θ2 + 2 * Real.pi * m, ω2] h
      = rungeKutta Real.sin Real.cos x ![θ1, ω1, θ2, ω2] h
          + ![2 * Real.pi * k, 0, 2 * Real.pi * m, 0] := by
  have hshift : (![θ1 + 2 * Real.pi * k, ω1, θ2 + 2 * Real.pi * m, ω2] : Fin 4 → ℝ)
      = fun i => (![θ1, ω1, θ2, ω2] : Fin 4 → ℝ) i
          + (![2 * Real.pi * k, 0, 2 * Real.pi * m, 0] : Fin 4 → ℝ) i := by
    funext i
    fin_cases i <;> simp
  constructor
  · rw [hshift]
    exact derivs_add_turns x x k m _
  · have key := rungeKutta_equivariant Real.sin Real.cos
      (fun y i => y i + (![2 * Real.pi * k, 0, 2 * Real.pi * m, 0] : Fin 4 → ℝ) i)
      (fun _ => 1) ![2 * Real.pi * k, 0, 2 * Real.pi * m, 0] 1
      (fun y i => by simp)
      (fun x x' y i => by rw [derivs_add_turns x x' k m y]) x x ![θ1, ω1, θ2, ω2] h
    rw [one_mul] at key
    rw [hshift, key]
    funext i
    simp

/-- Negating the state negates the result of `derivs`. -/
theorem derivs_neg (x x' : ℝ) (y : Fin 4 → ℝ) :
    derivs Real.sin Real.cos x (-y) = -derivs Real.sin Real.cos x' y := by
  have hd : del (-y) = -del y := by
    simp only [del, Pi.neg_apply]
    ring
  have hden : den1 Real.cos (-y) = den1 Real.cos y := by
    simp only [den1, hd, Real.cos_neg]
  funext i
  fin_cases i
  · simp [derivs]
  · simp only [derivs, den2, hden, hd, Pi.neg_apply, Real.sin_neg, Real.cos_neg,
      Matrix.cons_val_one, Matrix.head_cons, Fin.mk_one, Fin.isValue]
    ring
  · simp [derivs]
  · simp only [derivs, den2, hden, hd, Pi.neg_apply, Real.sin_neg, Real.cos_neg,
      Matrix.cons_val_three, Matrix.tail_cons, Matrix.head_cons, Fin.isValue, Fin.reduceFinMk]
    ring

/-- Claim C13.  Mirror symmetry: `derivs` is an odd function of the state,
`derivs(x, -y) = -derivs(x, y)` with componentwise negation, and for every `h` the RK4 step
is odd as well, `rungeKutta(x, -y, h) = -rungeKutta(x, y, h)`. -/
theorem mirror_symmetry (x h : ℝ) (y : Fin 4 → ℝ) :
    derivs Real.sin Real.cos x (-y) = -derivs Real.sin Real.cos x y ∧
    rungeKutta Real.sin Real.cos x (-y) h = -rungeKutta Real.sin Real.cos x y h := by
  refine ⟨derivs_neg x x y, ?_⟩
  have key := rungeKutta_equivariant Real.sin Real.cos (fun y => -y) (fun _ => -1)
    (fun _ => 0) 1 (fun y i => by simp)
    (fun x x' y i => by rw [derivs_neg x x' y]; simp) x x y h
  rw [one_mul] at key
  exact key

/-- Reversing the velocities reverses the velocity components of `derivs` and keeps the
two angular accelerations. -/
theorem derivs_reverseVelocities (x x' : ℝ) (y : Fin 4 → ℝ) :
    derivs Real.sin Real.cos x (reverseVelocities y)
      = ![-(derivs Real.sin Real.cos x' y 0), derivs Real.sin Real.cos x' y 1,
          -(derivs Real.sin Real.cos x' y 2), derivs Real.sin Real.cos x' y 3] := by
  have hd : del (reverseVelocities y) = del y := by
    simp [del, reverseVelocities]
  have hden : den1 Real.cos (reverseVelocities y) = den1 Real.cos y := by
    simp only [den1, hd]
  have e0 : reverseVelocities y 0 = y 0 := by simp [reverseVelocities]
  have e1 : reverseVelocities y 1 = -y 1 := by simp [reverseVelocities]
  have e2 : reverseVelocities y 2 = y 2 := by simp [reverseVelocities]
  have e3 : reverseVelocities y 3 = -y 3 := by simp [reverseVelocities]
  funext i
  fin_cases i
  · simp [derivs, e1]
  · simp only [derivs, den2, hden, hd, e0, e1, e2, e3, Matrix.cons_val_one, Matrix.head_cons,
      Fin.mk_one, Fin.isValue]
    ring
  · simp [derivs, e3]
  · simp only [derivs, den2, hden, hd, e0, e1, e2, e3, Matrix.cons_val_three,
      Matrix.tail_cons, Matrix.head_cons, Fin.isValue, Fin.reduceFinMk]
    ring

/-- Claim C14.  Time-reversal symmetry, with `R(θ1, ω1, θ2, ω2) = (θ1, -ω1, θ2, -ω2)`: if
`derivs(x, y) = (ω1, a1, ω2, a2)` then `derivs(x, R y) = (-ω1, a1, -ω2, a2)`, that is the
angular accelerations are even in the velocities; and for every state `y` and step `h`,
`rungeKutta(x, R y, -h) = R(rungeKutta(x, y, h))`. -/
theorem time_reversal_symmetry (x h : ℝ) (y : Fin 4 → ℝ) :
    (∀ ω1 a1 ω2 a2 : ℝ, derivs Real.sin Real.cos x y = ![ω1, a1, ω2, a2] →
      derivs Real.sin Real.cos x (reverseVelocities y) = ![-ω1, a1, -ω2, a2]) ∧
    rungeKutta Real.sin Real.cos x (reverseVelocities y) (-h)
      = reverseVelocities (rungeKutta Real.sin Real.cos x y h) := by
  constructor
  · intro ω1 a1 ω2 a2 hd
    rw [derivs_reverseVelocities x x y, hd]
    simp
  · have key := rungeKutta_equivariant Real.sin Real.cos reverseVelocities ![1, -1, 1, -1]
      (fun _ => 0) (-1)
      (fun y i => by fin_cases i <;> simp [reverseVelocities])
      (fun x x' y i => by
        rw [derivs_reverseVelocities x x' y]
        fin_cases i <;> simp) x x y h
    rw [neg_one_mul] at key
    exact key

/-- The derivatives at the state `(π/2, 1, 0, 2)`: both velocities and both angular
accelerations are nonzero. -/
theorem derivs_at_quarter_turn (x : ℝ) :
    derivs Real.sin Real.cos x ![Real.pi / 2, 1, 0, 2] = ![1, -11.82, 2, 1] := by
  have hd : del (![Real.pi / 2, 1, 0, 2] : Fin 4 → ℝ) = -(Real.pi / 2) := by
    simp [del]
  funext i
  fin_cases i
  · simp [derivs]
  · simp only [derivs, den1, hd, G, L1, L2, M1, M2, Real.sin_neg, Real.cos_neg,
      Real.sin_pi_div_two, Real.cos_pi_div_two]
    simp
    norm_num
  · simp [derivs]
  · simp only [derivs, den1, den2, hd, G, L1, L2, M1, M2, Real.sin_neg, Real.cos_neg,
      Real.sin_pi_div_two, Real.cos_pi_div_two]
    simp
    norm_num

/-- Time reversal at the state `(π/2, 1, 0, 2)`, where `derivs` is `(1, -11.82, 2, 1)`: at
the reversed state `(π/2, -1, 0, -2)` it is `(-1, -11.82, -2, 1)`. -/
theorem time_reversal_symmetry_witness :
    derivs Real.sin Real.cos 0 ![Real.pi / 2, 1, 0, 2] = ![1, -11.82, 2, 1] ∧
    reverseVelocities (![Real.pi / 2, 1, 0, 2] : Fin 4 → ℝ) = ![Real.pi / 2, -1, 0, -2] ∧
    derivs Real.sin Real.cos 0 (reverseVelocities ![Real.pi / 2, 1, 0, 2])
      = ![-1, -11.82, -2, 1] :=
  ⟨derivs_at_quarter_turn 0, by simp [reverseVelocities],
    (time_reversal_symmetry 0 1 ![Real.pi / 2, 1, 0, 2]).1 1 (-11.82) 2 1
      (derivs_at_quarter_turn 0)⟩

/-! ## Zero step and the rest configurations -/

/-- A step of size zero returns the state it was given. -/
theorem rungeKutta_zero_step {α : Type} [Field α] (sin cos : α → α) (x : α)
    (y : Fin 4 → α) : rungeKutta sin cos x y 0 = y := by
  funext i
  simp [rungeKutta]

/-- Any number of steps of size zero returns the state it was given. -/
theorem rkIterate_zero_step {α : Type} [Field α] (sin cos : α → α) (n : Nat)
    (y : Fin 4 → α) : rkIterate sin cos 0 n y = y := by
  induction n with
  | zero => simp [rkIterate]
  | succ n ih => rw [rkIterate_succ, rungeKutta_zero_step, ih]

/-- Claim C15, amended.  Over exact real arithmetic, where every state component is finite:
a zero step is the identity, `rungeKutta(x, y, 0) = y` for every state `y` and time `x`;
hence a run of `main` with `TMAX = TMIN` and `NSTEP ≥ 2` records the converted initial state
unchanged at every one of its `NSTEP` samples. -/
theorem zero_step_identity :
    (∀ (x : ℝ) (y : Fin 4 → ℝ), rungeKutta Real.sin Real.cos x y 0 = y) ∧
    (∀ (TMIN TH10 W10 TH20 W20 : ℝ) (NSTEP : ℤ), 2 ≤ NSTEP →
      ∃ recs, main Real.sin Real.cos Real.pi TMIN TMIN TH10 W10 TH20 W20 NSTEP = some recs ∧
        (recs.length : ℤ) = NSTEP ∧
        ∀ r ∈ recs, recordState r
          = ![TH10 * Real.pi / 180, W10 * Real.pi / 180, TH20 * Real.pi / 180,
              W20 * Real.pi / 180]) := by
  refine ⟨fun x y => rungeKutta_zero_step Real.sin Real.cos x y, ?_⟩
  intro TMIN TH10 W10 TH20 W20 NSTEP hN
  have hh : stepSize TMIN TMIN NSTEP = 0 := by
    rw [stepSize_real, sub_self, zero_div]
  refine ⟨_, main_eq Real.sin Real.cos Real.pi TMIN TMIN TH10 W10 TH20 W20 NSTEP (by omega),
    ?_, ?_⟩
  · simp only [List.length_map, List.length_range]
    omega
  · intro r hr
    simp only [List.mem_map, List.mem_range] at hr
    obtain ⟨i, _, rfl⟩ := hr
    rw [recordState_record, hh, rkIterate_zero_step, initialState_real]

/-- The run of `main` with `TMIN = TMAX = 5` on `90 0 -10 0` and `NSTEP = 3`. -/
theorem zero_step_identity_witness :
    ∃ recs, main Real.sin Real.cos Real.pi 5 5 90 0 (-10) 0 3 = some recs ∧
      (recs.length : ℤ) = 3 ∧
      ∀ r ∈ recs, recordState r
        = ![90 * Real.pi / 180, 0 * Real.pi / 180, (-10) * Real.pi / 180,
            0 * Real.pi / 180] :=
  zero_step_identity.2 5 90 0 (-10) 0 3 (by decide)

/-- At rest with both angles whole multiples of `π` the function `derivs` vanishes. -/
theorem derivs_rest_multiple_of_pi (x : ℝ) (k m : ℤ) :
    derivs Real.sin Real.cos x ![k * Real.pi, 0, m * Real.pi, 0] = fun _ => 0 := by
  have hd : (m : ℝ) * Real.pi - k * Real.pi = ((m - k : ℤ) : ℝ) * Real.pi := by
    push_cast
    ring
  funext i
  fin_cases i
  · simp [derivs]
  · simp [derivs, del, hd, Real.sin_int_mul_pi]
  · simp [derivs]
  · simp [derivs, del, hd, Real.sin_int_mul_pi]

/-- Claim C16.  Every rest configuration with both angles integer multiples of `π` is a
fixed point: for all integers `k`, `m`, `derivs` at `(kπ, 0, mπ, 0)` is `(0, 0, 0, 0)` and
`rungeKutta(x, (kπ, 0, mπ, 0), h) = (kπ, 0, mπ, 0)` for every `h`; this covers the inverted
and folded equilibria as well as the hanging one. -/
theorem rest_configurations_fixed (x h : ℝ) (k m : ℤ) :
    derivs Real.sin Real.cos x ![k * Real.pi, 0, m * Real.pi, 0] = ![0, 0, 0, 0] ∧
    rungeKutta Real.sin Real.cos x ![k * Real.pi, 0, m * Real.pi, 0] h
      = ![k * Real.pi, 0, m * Real.pi, 0] := by
  constructor
  · rw [derivs_rest_multiple_of_pi]
    funext i
    fin_cases i <;> rfl
  · exact rungeKutta_eq_self_of_derivs_eq_zero Real.sin Real.cos x _ h
      (derivs_rest_multiple_of_pi x k m)

/-! ## Special values of `float`: what the exact reading leaves out -/

/-- NaN plus anything is NaN. -/
theorem FloatVal.nan_add (a : FloatVal) : FloatVal.nan + a = FloatVal.nan := by
  cases a <;> rfl

/-- Anything plus NaN is NaN. -/
theorem FloatVal.add_nan (a : FloatVal) : a + FloatVal.nan = FloatVal.nan := by
  cases a <;> rfl

/-- NaN over anything is NaN. -/
theorem FloatVal.nan_div (a : FloatVal) : FloatVal.nan / a = FloatVal.nan := by
  cases a <;> rfl

/-- Infinity times zero is NaN. -/
theorem FloatVal.infinite_mul_zero (s : Bool) :
    FloatVal.infinite s * FloatVal.finite 0 = FloatVal.nan := by
  show FloatVal.mul _ _ = _
  simp [FloatVal.mul]

/-- Zero times infinity is NaN. -/
theorem FloatVal.zero_mul_infinite (s : Bool) :
    FloatVal.finite 0 * FloatVal.infinite s = FloatVal.nan := by
  show FloatVal.mul _ _ = _
  simp [FloatVal.mul]

/-- In `float` arithmetic the first component of a step is NaN as soon as the first
product `h * yin[1]` of the first stage is NaN. -/
theorem FloatVal.rungeKutta_zero_eq_nan (sin cos : FloatVal → FloatVal) (x : FloatVal)
    (y : Fin 4 → FloatVal) (h : FloatVal) (hk : h * y 1 = FloatVal.nan) :
    rungeKutta sin cos x y h 0 = FloatVal.nan := by
  have hd : derivs sin cos x y 0 = y 1 := rfl
  simp only [rungeKutta, hd, hk, FloatVal.nan_div, FloatVal.add_nan, FloatVal.nan_add]

/-- The run of `main` for `NSTEP = 2`, in any arithmetic: the initial record and the record
of the one step. -/
theorem main_two {α : Type} [Add α] [Sub α] [Mul α] [Div α] [Neg α] [OfScientific α]
    [NatCast α] [IntCast α] (sin cos : α → α) (pi TMIN TMAX TH10 W10 TH20 W20 : α) :
    main sin cos pi TMIN TMAX TH10 W10 TH20 W20 2
      = some [record (TMIN + stepSize TMIN TMAX 2 * ((0 : Nat) : α))
                (initialState pi TH10 W10 TH20 W20),
              record (TMIN + stepSize TMIN TMAX 2 * ((1 : Nat) : α))
                (rungeKutta sin cos (TMIN + stepSize TMIN TMAX 2 * ((0 : Nat) : α))
                  (initialState pi TH10 W10 TH20 W20) (stepSize TMIN TMAX 2))] := by
  have h2 : (2 : ℤ).toNat = 2 := rfl
  have h1 : ((2 : ℤ) - 1).toNat = 1 := rfl
  have hr : List.range 2 = [0, 1] := rfl
  simp [main, mainLoop, timeArray, h2, h1, hr]

/-- The step size of `main` for `TMIN = 0`, `TMAX = inf` and `NSTEP = 2` is `inf`. -/
theorem FloatVal.stepSize_infinite :
    stepSize (FloatVal.finite 0) (FloatVal.infinite false) 2 = FloatVal.infinite false := by
  show FloatVal.div (FloatVal.add (FloatVal.infinite false) (FloatVal.neg (FloatVal.finite 0)))
    (FloatVal.add (FloatVal.finite ((2 : ℤ) : ℚ))
      (FloatVal.neg (FloatVal.finite (1.0 : ℚ)))) = _
  simp only [FloatVal.neg, FloatVal.add, FloatVal.div]
  norm_num

/-- The step size of `main` for `TMIN = TMAX = 0` and `NSTEP = 2` is `0`. -/
theorem FloatVal.stepSize_zero :
    stepSize (FloatVal.finite 0) (FloatVal.finite 0) 2 = FloatVal.finite 0 := by
  show FloatVal.div (FloatVal.add (FloatVal.finite 0) (FloatVal.neg (FloatVal.finite 0)))
    (FloatVal.add (FloatVal.finite ((2 : ℤ) : ℚ))
      (FloatVal.neg (FloatVal.finite (1.0 : ℚ)))) = _
  simp only [FloatVal.neg, FloatVal.add, FloatVal.div]
  norm_num

/-- A zero input in degrees is a zero in radians, whatever finite value stands for `M_PI`. -/
theorem FloatVal.zero_degrees (q : ℚ) :
    FloatVal.finite 0 * FloatVal.finite q / (180.0 : FloatVal) = FloatVal.finite 0 := by
  show FloatVal.div (FloatVal.mul (FloatVal.finite 0) (FloatVal.finite q))
    (FloatVal.finite (180.0 : ℚ)) = _
  simp only [FloatVal.mul, FloatVal.div]
  norm_num

/-- An infinite input in degrees is infinite in radians, for a positive `M_PI`. -/
theorem FloatVal.infinite_degrees (q : ℚ) (hq : 0 < q) :
    FloatVal.infinite false * FloatVal.finite q / (180.0 : FloatVal)
      = FloatVal.infinite false := by
  show FloatVal.div (FloatVal.mul (FloatVal.infinite false) (FloatVal.finite q))
    (FloatVal.finite (180.0 : ℚ)) = _
  have h1 : q ≠ 0 := ne_of_gt hq
  have h2 : ¬ q < 0 := not_lt.mpr hq.le
  simp only [FloatVal.mul, FloatVal.div, h1, h2, if_false, decide_False, Bool.xor_false]
  norm_num

/-- Claim C5 fails as stated.  With the special values of `float`, one step of size
`h = inf` from `(0, 0, 0, 0)` has first component NaN, whatever `sin` and `cos` are, because
`k1[0] = h * dydx[0] = inf * 0` is NaN; and the run of `main` on `0 inf 0 0 0 0 2`, whose
step size is `inf`, prints a second record whose state is not `(0, 0, 0, 0)`. -/
theorem equilibrium_lost_at_infinite_step :
    (∀ (sin cos : FloatVal → FloatVal) (x : FloatVal),
      rungeKutta sin cos x
          ![FloatVal.finite 0, FloatVal.finite 0, FloatVal.finite 0, FloatVal.finite 0]
          (FloatVal.infinite false) 0 = FloatVal.nan) ∧
    (∀ sin cos : FloatVal → FloatVal,
      ∃ recs, main sin cos (FloatVal.finite 3.141592653589793) (FloatVal.finite 0)
          (FloatVal.infinite false) (FloatVal.finite 0) (FloatVal.finite 0)
          (FloatVal.finite 0) (FloatVal.finite 0) 2 = some recs ∧
        ∃ r ∈ recs, recordState r 0 = FloatVal.nan ∧
          recordState r
            ≠ ![FloatVal.finite 0, FloatVal.finite 0, FloatVal.finite 0, FloatVal.finite 0]) := by
  constructor
  · intro sin cos x
    exact FloatVal.rungeKutta_zero_eq_nan sin cos x _ _ (FloatVal.infinite_mul_zero false)
  · intro sin cos
    have hk : stepSize (FloatVal.finite 0) (FloatVal.infinite false) 2
        * initialState (FloatVal.finite 3.141592653589793) (FloatVal.finite 0)
            (FloatVal.finite 0) (FloatVal.finite 0) (FloatVal.finite 0) 1 = FloatVal.nan := by
      rw [FloatVal.stepSize_infinite]
      show FloatVal.infinite false * (FloatVal.finite 0 * FloatVal.finite _ / 180.0) = _
      rw [FloatVal.zero_degrees, FloatVal.infinite_mul_zero]
    have hn := FloatVal.rungeKutta_zero_eq_nan sin cos
      (FloatVal.finite 0 + stepSize (FloatVal.finite 0) (FloatVal.infinite false) 2
        * ((0 : Nat) : FloatVal)) _ _ hk
    refine ⟨_, main_two sin cos _ _ _ _ _ _ _, _, List.mem_cons_of_mem _ (List.mem_singleton.mpr rfl),
      ?_, ?_⟩
    · rw [recordState_record]
      exact hn
    · rw [recordState_record]
      intro heq
      have h0 := congrFun heq 0
      rw [hn] at h0
      exact FloatVal.noConfusion h0

/-- Claim C15 fails as stated.  With the special values of `float`, a step of size `h = 0`
from the state `(0, inf, 0, 0)` has first component NaN instead of `0`, whatever `sin` and
`cos` are, because `k1[0] = h * dydx[0] = 0 * inf` is NaN; and the run of `main` on
`0 0 0 inf 0 0 2`, where `TMAX = TMIN`, starts from a state with first component `0` and
prints a second record with first component NaN. -/
theorem zero_step_loses_infinite_velocity :
    (∀ (sin cos : FloatVal → FloatVal) (x : FloatVal),
      rungeKutta sin cos x
          ![FloatVal.finite 0, FloatVal.infinite false, FloatVal.finite 0, FloatVal.finite 0]
          (FloatVal.finite 0) 0 = FloatVal.nan) ∧
    (∀ sin cos : FloatVal → FloatVal,
      ∃ recs, main sin cos (FloatVal.finite 3.141592653589793) (FloatVal.finite 0)
          (FloatVal.finite 0) (FloatVal.finite 0) (FloatVal.infinite false)
          (FloatVal.finite 0) (FloatVal.finite 0) 2 = some recs ∧
        initialState (FloatVal.finite 3.141592653589793) (FloatVal.finite 0)
          (FloatVal.infinite false) (FloatVal.finite 0) (FloatVal.finite 0) 0
            = FloatVal.finite 0 ∧
        ∃ r ∈ recs, recordState r 0 = FloatVal.nan ∧
          recordState r
            ≠ initialState (FloatVal.finite 3.141592653589793) (FloatVal.finite 0)
                (FloatVal.infinite false) (FloatVal.finite 0) (FloatVal.finite 0)) := by
  have hi0 : initialState (FloatVal.finite 3.141592653589793) (FloatVal.finite 0)
      (FloatVal.infinite false) (FloatVal.finite 0) (FloatVal.finite 0) 0
        = FloatVal.finite 0 := by
    show FloatVal.finite 0 * FloatVal.finite _ / 180.0 = _
    rw [FloatVal.zero_degrees]
  constructor
  · intro sin cos x
    exact FloatVal.rungeKutta_zero_eq_nan sin cos x _ _ (FloatVal.zero_mul_infinite false)
  · intro sin cos
    have hk : stepSize (FloatVal.finite 0) (FloatVal.finite 0) 2
        * initialState (FloatVal.finite 3.141592653589793) (FloatVal.finite 0)
            (FloatVal.infinite false) (FloatVal.finite 0) (FloatVal.finite 0) 1
          = FloatVal.nan := by
      rw [FloatVal.stepSize_zero]
      show FloatVal.finite 0 * (FloatVal.infinite false * FloatVal.finite _ / 180.0) = _
      rw [FloatVal.infinite_degrees _ (by norm_num), FloatVal.zero_mul_infinite]
    have hn := FloatVal.rungeKutta_zero_eq_nan sin cos
      (FloatVal.finite 0 + stepSize (FloatVal.finite 0) (FloatVal.finite 0) 2
        * ((0 : Nat) : FloatVal)) _ _ hk
    refine ⟨_, main_two sin cos _ _ _ _ _ _ _, hi0, _,
      List.mem_cons_of_mem _ (List.mem_singleton.mpr rfl), ?_, ?_⟩
    · rw [recordState_record]
      exact hn
    · rw [recordState_record]
      intro heq
      have h0 := congrFun heq 0
      rw [hn, hi0] at h0
      exact FloatVal.noConfusion h0

end DoublePendulum
